import Mathlib

/-!
# Verification of the obsidian-export resolution and transformation pipeline

Shallow embedding of the exporter core of the `obsidian-export` repository.
The postprocessor functions (`softbreaks_to_hardbreaks`, `yaml_includer`)
are translated directly from `src/postprocessors.rs`.  The exporter
orchestration (`Exporter`, `Context`, the recursive embed expander, the
frontmatter strategy resolution and the per-note export driver) lives in
the crate's `lib.rs`, which is not part of the sources at hand; those
definitions are modelled from the specification, as marked in their doc
comments.
-/

/-- A vault-relative path, modelled as a plain string. -/
abbrev NotePath := String

/-- Modelled from the spec: the YAML value model (§3) — values are a tagged
union over null, bool, number, string, sequence and mapping.  This mirrors
the out-of-scope `serde_yaml::Value` at its interface boundary. -/
inductive Value where
  | null : Value
  | bool (b : Bool) : Value
  | number (n : Int) : Value
  | str (s : String) : Value
  | sequence (xs : List Value) : Value
  | mapping (m : List (Value × Value)) : Value

mutual

/-- Boolean equality on YAML values (structural). -/
def Value.beq : Value → Value → Bool
  | Value.null, Value.null => true
  | Value.bool a, Value.bool b => a == b
  | Value.number a, Value.number b => a == b
  | Value.str a, Value.str b => a == b
  | Value.sequence xs, Value.sequence ys => Value.beqList xs ys
  | Value.mapping xs, Value.mapping ys => Value.beqPairs xs ys
  | _, _ => false

/-- Boolean equality on YAML sequences. -/
def Value.beqList : List Value → List Value → Bool
  | [], [] => true
  | x :: xs, y :: ys => Value.beq x y && Value.beqList xs ys
  | _, _ => false

/-- Boolean equality on YAML mappings. -/
def Value.beqPairs : List (Value × Value) → List (Value × Value) → Bool
  | [], [] => true
  | (k, v) :: xs, (k2, v2) :: ys => Value.beq k k2 && Value.beq v v2 && Value.beqPairs xs ys
  | _, _ => false

end

mutual

theorem Value.beq_refl : (a : Value) → Value.beq a a = true
  | Value.null => by simp [Value.beq]
  | Value.bool b => by simp [Value.beq]
  | Value.number n => by simp [Value.beq]
  | Value.str s => by simp [Value.beq]
  | Value.sequence xs => by simp [Value.beq]; exact Value.beqList_refl xs
  | Value.mapping m => by simp [Value.beq]; exact Value.beqPairs_refl m

theorem Value.beqList_refl : (xs : List Value) → Value.beqList xs xs = true
  | [] => by simp [Value.beqList]
  | x :: xs => by
      simp [Value.beqList]
      exact ⟨Value.beq_refl x, Value.beqList_refl xs⟩

theorem Value.beqPairs_refl : (xs : List (Value × Value)) → Value.beqPairs xs xs = true
  | [] => by simp [Value.beqPairs]
  | (k, v) :: xs => by
      simp [Value.beqPairs]
      exact ⟨⟨Value.beq_refl k, Value.beq_refl v⟩, Value.beqPairs_refl xs⟩

end

mutual

theorem Value.eq_of_beq : (a b : Value) → Value.beq a b = true → a = b
  | Value.null, b, h => by cases b <;> simp_all [Value.beq]
  | Value.bool x, b, h => by cases b <;> simp_all [Value.beq]
  | Value.number x, b, h => by cases b <;> simp_all [Value.beq]
  | Value.str x, b, h => by cases b <;> simp_all [Value.beq]
  | Value.sequence xs, b, h => by
      cases b with
      | sequence ys =>
          simp only [Value.beq] at h
          rw [Value.eqList_of_beq xs ys h]
      | null => simp [Value.beq] at h
      | bool y => simp [Value.beq] at h
      | number y => simp [Value.beq] at h
      | str y => simp [Value.beq] at h
      | mapping m => simp [Value.beq] at h
  | Value.mapping xs, b, h => by
      cases b with
      | mapping ys =>
          simp only [Value.beq] at h
          rw [Value.eqPairs_of_beq xs ys h]
      | null => simp [Value.beq] at h
      | bool y => simp [Value.beq] at h
      | number y => simp [Value.beq] at h
      | str y => simp [Value.beq] at h
      | sequence y => simp [Value.beq] at h

theorem Value.eqList_of_beq : (xs ys : List Value) → Value.beqList xs ys = true → xs = ys
  | [], ys, h => by cases ys <;> simp_all [Value.beqList]
  | x :: xs, [], h => by simp [Value.beqList] at h
  | x :: xs, y :: ys, h => by
      simp only [Value.beqList, Bool.and_eq_true] at h
      rw [Value.eq_of_beq x y h.1, Value.eqList_of_beq xs ys h.2]

theorem Value.eqPairs_of_beq :
    (xs ys : List (Value × Value)) → Value.beqPairs xs ys = true → xs = ys
  | [], ys, h => by cases ys <;> simp_all [Value.beqPairs]
  | (k, v) :: xs, [], h => by simp [Value.beqPairs] at h
  | (k, v) :: xs, (k2, v2) :: ys, h => by
      simp only [Value.beqPairs, Bool.and_eq_true] at h
      rw [Value.eq_of_beq k k2 h.1.1, Value.eq_of_beq v v2 h.1.2,
        Value.eqPairs_of_beq xs ys h.2]

end

instance : DecidableEq Value := fun a b =>
  if h : Value.beq a b = true then
    Decidable.isTrue (Value.eq_of_beq a b h)
  else
    Decidable.isFalse (fun he => h (he ▸ Value.beq_refl a))

/-- Modelled from the spec: frontmatter is an ordered key→value mapping
(§3), mirroring `serde_yaml::Mapping`. -/
abbrev Frontmatter := List (Value × Value)

/-- Modelled from the spec: lookup in an ordered mapping, mirroring
`serde_yaml::Mapping::get` (first entry with an equal key). -/
def fmGet (fm : Frontmatter) (k : Value) : Option Value :=
  (fm.find? (fun kv => decide (kv.1 = k))).map (fun kv => kv.2)

/-- Modelled from the spec: insertion into an ordered mapping, mirroring
`serde_yaml::Mapping::insert` (update an existing key in place, otherwise
append at the end). -/
def fmInsert (fm : Frontmatter) (k v : Value) : Frontmatter :=
  if fm.any (fun kv => decide (kv.1 = k)) then
    fm.map (fun kv => if kv.1 = k then (k, v) else kv)
  else
    fm ++ [(k, v)]

/-- Modelled from the spec: the markdown event vocabulary consumed from the
out-of-scope parser (§6): text, soft break, hard break, start/end span
markers, link, image/embed, footnote reference, footnote definition.
An embed reference carries its target token. -/
inductive Event where
  | text (s : String) : Event
  | softBreak : Event
  | hardBreak : Event
  | startTag (t : String) : Event
  | endTag (t : String) : Event
  | link (target : NotePath) : Event
  | embed (target : NotePath) : Event
  | footnoteReference (s : String) : Event
  | footnoteDefinition (s : String) : Event
  deriving DecidableEq

/-- The three control-flow outcomes a postprocessor may return
(`PostprocessorResult` in the crate). -/
inductive PostprocessorResult where
  | Continue : PostprocessorResult
  | StopHere : PostprocessorResult
  | StopAndSkipNote : PostprocessorResult
  deriving DecidableEq

/-- One of {Always, Never, Auto} (`FrontmatterStrategy` in the crate). -/
inductive FrontmatterStrategy where
  | Always : FrontmatterStrategy
  | Never : FrontmatterStrategy
  | Auto : FrontmatterStrategy
  deriving DecidableEq

/-- Modelled from the spec: the exporter configuration surface (§6) —
frontmatter strategy, recursive-embed switch, flat layout switch and the
YAML inclusion key.  The postprocessor lists are passed to the pipeline
separately, as in the spec's `run(list, context, events, config)` contract
(§4.4). -/
structure Exporter where
  frontmatter_strategy : FrontmatterStrategy
  process_embeds_recursively : Bool
  flat_export : Bool
  yaml_inclusion_key : Value
  deriving DecidableEq

/-- Modelled from the spec: per-note processing state threaded through the
pipeline (§3): the file-tree trace (ancestry from the export root to the
current note; the current file is its last element, the root its first),
the current note's frontmatter, and the mutable destination path. -/
structure Context where
  file_tree : List NotePath
  frontmatter : Frontmatter
  destination : NotePath
  deriving DecidableEq

/-- The path of the note currently being processed. -/
def Context.current_file (ctx : Context) : Option NotePath :=
  ctx.file_tree.getLast?

/-- Modelled from the spec: one source note after frontmatter split and
body parse (§3) — its parsed frontmatter and its body event stream. -/
structure Note where
  frontmatter : Frontmatter
  body : List Event
  deriving DecidableEq

/-- Modelled from the spec: the vault, a finite map from vault-relative
paths to notes (§3). -/
abbrev Vault := List (NotePath × Note)

/-- Lookup of a note by path in the vault. -/
def vaultLookup : Vault → NotePath → Option Note
  | [], _ => none
  | (p, n) :: rest, t => if p = t then some n else vaultLookup rest t

/-- A postprocessor: mutable access to context and events is modelled by
returning the updated pair alongside the `PostprocessorResult`. -/
abbrev Postprocessor :=
  Context → List Event → Exporter → Context × List Event × PostprocessorResult

/-- Outcome of running one postprocessor chain: either the note is produced
with its final state, or it is skipped (`StopAndSkipNote`). -/
inductive PipelineOutcome where
  | produced (ctx : Context) (events : List Event) : PipelineOutcome
  | skipped : PipelineOutcome
  deriving DecidableEq

/-- Modelled from the spec: the postprocessor pipeline (§4.4).  Each
postprocessor is invoked in registration order; `Continue` proceeds,
`StopHere` ends the chain with the note treated as produced in its current
state, `StopAndSkipNote` aborts the note. -/
def runPostprocessors : List Postprocessor → Context → List Event → Exporter → PipelineOutcome
  | [], ctx, events, _ => PipelineOutcome.produced ctx events
  | p :: rest, ctx, events, cfg =>
    match p ctx events cfg with
    | (ctx', events', PostprocessorResult.Continue) => runPostprocessors rest ctx' events' cfg
    | (ctx', events', PostprocessorResult.StopHere) => PipelineOutcome.produced ctx' events'
    | (_, _, PostprocessorResult.StopAndSkipNote) => PipelineOutcome.skipped

/-- The base name of a path (the component after the last slash). -/
def baseName (p : NotePath) : NotePath :=
  match (p.splitOn "/").getLast? with
  | some s => s
  | none => p

/-- Modelled from the spec: the output path mapper (§4.5) — under the
hierarchy-preserving layout the destination mirrors the source path, under
the flat layout it is the base name placed directly under the destination
root.  (The flat-layout collision policy is not needed by the claims
settled here.) -/
def mapPath (cfg : Exporter) (p : NotePath) : NotePath :=
  if cfg.flat_export then baseName p else p

/-- Modelled from the spec: the fatal error surface of the expander (§4.3,
§7) — `RecursionLimitExceeded` carries the ordered file-tree trace. -/
inductive ExportError where
  | recursionLimitExceeded (file_tree : List NotePath) : ExportError
  deriving DecidableEq

/-- Modelled from the spec: the fresh context scoped to an embed target
(§4.3) — its own frontmatter, its own destination path derived by the
output path mapper as if it were independently exported, and the grown
file-tree trace. -/
def embedContext (cfg : Exporter) (trace : List NotePath) (t : NotePath) (note : Note) : Context :=
  { file_tree := trace ++ [t]
    frontmatter := note.frontmatter
    destination := mapPath cfg t }

/-- Modelled from the spec: the context for a root note at the start of its
pipeline invocation (§3, §4.4). -/
def rootContext (cfg : Exporter) (path : NotePath) (note : Note) : Context :=
  { file_tree := [path]
    frontmatter := note.frontmatter
    destination := mapPath cfg path }

/-- Modelled from the spec: the per-embed-occurrence state machine of the
recursive embed expander (§4.3), parametric in the handler `child` used to
expand the body of an embed target one level deeper (`child = none` means
the depth budget is exhausted, in which case entering any embed is the
fatal depth condition).  Unresolved targets are skipped with the reference
left literal; with recursive embed processing disabled every embed
short-circuits to a plain link; a target already present in the file-tree
trace is the fatal cycle condition carrying the grown trace; otherwise the
target's body is expanded one level deeper, the embed-level postprocessors
run on it with a fresh context scoped to the target, and the result
replaces the embed reference (or the reference is removed entirely, with
no content and no literal fallback, when the chain says to skip the
note).  Non-embed events pass through unchanged. -/
def expandHead (vault : Vault) (cfg : Exporter) (pps : List Postprocessor)
    (child : Option (List NotePath → List Event → Except ExportError (List Event)))
    (trace : List NotePath) : Event → Except ExportError (List Event)
  | Event.embed t =>
    if cfg.process_embeds_recursively then
      match vaultLookup vault t with
      | none => Except.ok [Event.embed t]
      | some note =>
        if t ∈ trace then
          Except.error (ExportError.recursionLimitExceeded (trace ++ [t]))
        else
          match child with
          | none => Except.error (ExportError.recursionLimitExceeded (trace ++ [t]))
          | some go =>
            match go (trace ++ [t]) note.body with
            | Except.error e => Except.error e
            | Except.ok inner =>
              match runPostprocessors pps (embedContext cfg trace t note) inner cfg with
              | PipelineOutcome.skipped => Except.ok []
              | PipelineOutcome.produced _ out => Except.ok out
    else
      Except.ok [Event.link t]
  | e => Except.ok [e]

/-- Modelled from the spec: one pass of the recursive embed expander over
an event stream (§4.3), embeds handled in document order, left to right;
the first fatal condition aborts the whole pass. -/
def expandGo (vault : Vault) (cfg : Exporter) (pps : List Postprocessor)
    (child : Option (List NotePath → List Event → Except ExportError (List Event))) :
    List NotePath → List Event → Except ExportError (List Event)
  | _, [] => Except.ok []
  | trace, ev :: rest =>
    match expandHead vault cfg pps child trace ev with
    | Except.error e => Except.error e
    | Except.ok hd =>
      match expandGo vault cfg pps child trace rest with
      | Except.error e => Except.error e
      | Except.ok tl => Except.ok (hd ++ tl)

/-- Modelled from the spec: the recursive embed expander (§4.3), embeds
expanded depth-first in document order.  The fuel argument is the
remaining depth budget: with trace length `d` inside a run with recursion
limit `L` the expander is invoked with fuel `L - d`, so entering an embed
is allowed exactly when the grown trace would not exceed the limit. -/
def expandEvents (vault : Vault) (cfg : Exporter) (pps : List Postprocessor) :
    Nat → List NotePath → List Event → Except ExportError (List Event)
  | 0 => expandGo vault cfg pps none
  | fuel + 1 => expandGo vault cfg pps (some (expandEvents vault cfg pps fuel))

/-- Modelled from the spec: frontmatter strategy resolution (§4.1) —
`resolve(strategy, frontmatter_mapping)`: under Always the mapping
(possibly empty) survives, under Never nothing survives, under Auto the
mapping survives only if it is non-empty. -/
def resolve (strategy : FrontmatterStrategy) (fm : Frontmatter) : Option Frontmatter :=
  match strategy with
  | FrontmatterStrategy.Always => some fm
  | FrontmatterStrategy.Never => none
  | FrontmatterStrategy.Auto => if fm.isEmpty then none else some fm

/-- One written output file: its destination path, the surviving
frontmatter block (if any) and the serialized event stream. -/
structure Output where
  path : NotePath
  frontmatter : Option Frontmatter
  events : List Event
  deriving DecidableEq

/-- Modelled from the spec: export of one root note (§2 control flow):
the body is expanded recursively with the embed-level postprocessors (the
root's trace starts at `[path]`, so the depth budget is `limit - 1`), the
note-level postprocessors run on the fully expanded stream, the strategy
decision on the post-pipeline frontmatter determines the final block, and
the result is written to the context's (possibly redirected) destination.
`Except.ok none` is a `StopAndSkipNote`-aborted root note: no file
written, not an error. -/
def exportNote (vault : Vault) (cfg : Exporter) (npps epps : List Postprocessor)
    (limit : Nat) (path : NotePath) (note : Note) : Except ExportError (Option Output) :=
  match expandEvents vault cfg epps (limit - 1) [path] note.body with
  | Except.error e => Except.error e
  | Except.ok events =>
    match runPostprocessors npps (rootContext cfg path note) events cfg with
    | PipelineOutcome.skipped => Except.ok none
    | PipelineOutcome.produced ctx events2 =>
      Except.ok (some
        { path := ctx.destination
          frontmatter := resolve cfg.frontmatter_strategy ctx.frontmatter
          events := events2 })

/-- Modelled from the spec: the export run over the candidate root notes
(§6, §7): per-root outcomes are collected independently — written outputs
on one side, fatal per-file failures on the other; a skipped root note
contributes to neither. -/
def runVault (vault : Vault) (cfg : Exporter) (npps epps : List Postprocessor)
    (limit : Nat) : List NotePath → List Output × List (NotePath × ExportError)
  | [] => ([], [])
  | r :: rest =>
    let acc := runVault vault cfg npps epps limit rest
    match vaultLookup vault r with
    | none => acc
    | some note =>
      match exportNote vault cfg npps epps limit r note with
      | Except.error e => (acc.1, (r, e) :: acc.2)
      | Except.ok none => acc
      | Except.ok (some out) => (out :: acc.1, acc.2)

/-- Translated from `src/postprocessors.rs`: converts every soft line
break to a hard line break, leaving all other events as they are, and
continues the chain.  The Rust original mutates each event in place via
`iter_mut`; this is a pointwise map. -/
def softbreaks_to_hardbreaks (context : Context) (events : List Event) (_exporter : Exporter) :
    Context × List Event × PostprocessorResult :=
  (context,
    events.map (fun event =>
      match event with
      | Event.softBreak => Event.hardBreak
      | e => e),
    PostprocessorResult.Continue)

/-- Translated from `src/postprocessors.rs`: scans the frontmatter for the
exporter's inclusion key; if it maps to the YAML boolean `true` the chain
continues, otherwise the note is skipped. -/
def yaml_includer (context : Context) (events : List Event) (exporter : Exporter) :
    Context × List Event × PostprocessorResult :=
  match fmGet context.frontmatter exporter.yaml_inclusion_key with
  | some (Value.bool true) => (context, events, PostprocessorResult.Continue)
  | _ => (context, events, PostprocessorResult.StopAndSkipNote)

/-- An event stream free of embed references (so the expander passes it
through unchanged). -/
def noEmbeds (events : List Event) : Bool :=
  events.all (fun e =>
    match e with
    | Event.embed _ => false
    | _ => true)

/-- The test-suite postprocessor shape that skips every note
(`tests/postprocessors_test.rs`). -/
def skipAllPP : Postprocessor := fun ctx evs _ => (ctx, evs, PostprocessorResult.StopAndSkipNote)

/-- The test-suite postprocessor shape that redirects the destination path
(`tests/postprocessors_test.rs`, `test_postprocessor_change_destination`). -/
def redirectPP (d : NotePath) : Postprocessor := fun ctx evs _ =>
  ({ ctx with destination := d }, evs, PostprocessorResult.Continue)

/-- The test-suite postprocessor shape that inspects the context's
frontmatter (`tests/postprocessors_test.rs`,
`test_embed_postprocessors_context`): continue only when the observed
frontmatter is the expected one, otherwise skip the note. -/
def expectFmPP (fm : Frontmatter) : Postprocessor := fun ctx evs _ =>
  (ctx, evs, if ctx.frontmatter = fm then PostprocessorResult.Continue
             else PostprocessorResult.StopAndSkipNote)

/-- The test-suite postprocessor shape that appends a frontmatter entry
(`tests/postprocessors_test.rs`, `append_frontmatter`). -/
def appendFmPP (k v : Value) : Postprocessor := fun ctx evs _ =>
  ({ ctx with frontmatter := fmInsert ctx.frontmatter k v }, evs, PostprocessorResult.Continue)

theorem noEmbeds_cons (e : Event) (rest : List Event) :
    noEmbeds (e :: rest) =
      ((match e with | Event.embed _ => false | _ => true) && noEmbeds rest) := rfl

theorem expandHead_not_embed (vault : Vault) (cfg : Exporter) (pps : List Postprocessor)
    (child : Option (List NotePath → List Event → Except ExportError (List Event)))
    (trace : List NotePath) (ev : Event)
    (h : (match ev with | Event.embed _ => false | _ => true) = true) :
    expandHead vault cfg pps child trace ev = Except.ok [ev] := by
  cases ev <;> simp_all [expandHead]

theorem expandGo_cons (vault : Vault) (cfg : Exporter) (pps : List Postprocessor)
    (child : Option (List NotePath → List Event → Except ExportError (List Event)))
    (trace : List NotePath) (ev : Event) (rest : List Event) :
    expandGo vault cfg pps child trace (ev :: rest) =
      match expandHead vault cfg pps child trace ev with
      | Except.error e => Except.error e
      | Except.ok hd =>
        match expandGo vault cfg pps child trace rest with
        | Except.error e => Except.error e
        | Except.ok tl => Except.ok (hd ++ tl) := rfl

theorem expandGo_noEmbeds (vault : Vault) (cfg : Exporter) (pps : List Postprocessor)
    (child : Option (List NotePath → List Event → Except ExportError (List Event)))
    (trace : List NotePath) (evs : List Event) (h : noEmbeds evs = true) :
    expandGo vault cfg pps child trace evs = Except.ok evs := by
  induction evs with
  | nil => rfl
  | cons ev rest ih =>
    rw [noEmbeds_cons, Bool.and_eq_true] at h
    rw [expandGo_cons, expandHead_not_embed vault cfg pps child trace ev h.1, ih h.2]
    simp

theorem expandGo_append (vault : Vault) (cfg : Exporter) (pps : List Postprocessor)
    (child : Option (List NotePath → List Event → Except ExportError (List Event)))
    (trace : List NotePath) (xs ys : List Event) :
    expandGo vault cfg pps child trace (xs ++ ys) =
      match expandGo vault cfg pps child trace xs with
      | Except.error e => Except.error e
      | Except.ok hd =>
        match expandGo vault cfg pps child trace ys with
        | Except.error e => Except.error e
        | Except.ok tl => Except.ok (hd ++ tl) := by
  induction xs with
  | nil =>
    simp only [List.nil_append]
    cases h : expandGo vault cfg pps child trace ys <;> simp [expandGo]
  | cons ev rest ih =>
    rw [List.cons_append, expandGo_cons, expandGo_cons, ih]
    cases hh : expandHead vault cfg pps child trace ev <;> simp
    cases h1 : expandGo vault cfg pps child trace rest <;> simp
    cases h2 : expandGo vault cfg pps child trace ys <;> simp

theorem expandEvents_zero (vault : Vault) (cfg : Exporter) (pps : List Postprocessor) :
    expandEvents vault cfg pps 0 = expandGo vault cfg pps none := rfl

theorem expandEvents_succ (vault : Vault) (cfg : Exporter) (pps : List Postprocessor)
    (fuel : Nat) :
    expandEvents vault cfg pps (fuel + 1) =
      expandGo vault cfg pps (some (expandEvents vault cfg pps fuel)) := rfl

theorem expandEvents_noEmbeds (vault : Vault) (cfg : Exporter) (pps : List Postprocessor)
    (fuel : Nat) (trace : List NotePath) (evs : List Event) (h : noEmbeds evs = true) :
    expandEvents vault cfg pps fuel trace evs = Except.ok evs := by
  cases fuel with
  | zero => exact expandGo_noEmbeds vault cfg pps none trace evs h
  | succ f => exact expandGo_noEmbeds vault cfg pps _ trace evs h

/-- A concrete exporter configuration used by witnesses. -/
def cfgW : Exporter := ⟨FrontmatterStrategy.Auto, true, false, Value.str "export"⟩

/-- A concrete context used by witnesses. -/
def ctxW : Context := ⟨["Note.md"], [], "Note.md"⟩

/-- Claim C9: for every event sequence and context,
`softbreaks_to_hardbreaks` replaces each SoftBreak event with a HardBreak
event, leaves every other event equal to its input, preserves the length
and order of the sequence (stated pointwise through indexed lookup),
leaves the context unchanged, and returns Continue. -/
theorem softbreaks_to_hardbreaks_pointwise (ctx : Context) (events : List Event) (cfg : Exporter) :
    (softbreaks_to_hardbreaks ctx events cfg).1 = ctx ∧
    (softbreaks_to_hardbreaks ctx events cfg).2.2 = PostprocessorResult.Continue ∧
    (softbreaks_to_hardbreaks ctx events cfg).2.1.length = events.length ∧
    ∀ i : Nat, (softbreaks_to_hardbreaks ctx events cfg).2.1[i]? =
      (events[i]?).map (fun e => if e = Event.softBreak then Event.hardBreak else e) := by
  refine ⟨rfl, rfl, by simp [softbreaks_to_hardbreaks], ?_⟩
  intro i
  simp only [softbreaks_to_hardbreaks, List.getElem?_map]
  cases events[i]? with
  | none => rfl
  | some e => cases e <;> rfl

/-- Claim C10: `softbreaks_to_hardbreaks` is idempotent on the event
sequence: applying it twice (under any contexts and configurations) yields
the same sequence as applying it once. -/
theorem softbreaks_to_hardbreaks_idempotent (ctx1 ctx2 : Context) (events : List Event)
    (cfg1 cfg2 : Exporter) :
    (softbreaks_to_hardbreaks ctx2 (softbreaks_to_hardbreaks ctx1 events cfg1).2.1 cfg2).2.1 =
      (softbreaks_to_hardbreaks ctx1 events cfg1).2.1 := by
  simp only [softbreaks_to_hardbreaks, List.map_map]
  induction events with
  | nil => rfl
  | cons e rest ih =>
    simp only [List.map_cons]
    rw [ih]
    cases e <;> rfl

/-- Claim C6: for every context and exporter configuration, the
inclusion-gate postprocessor `yaml_includer` leaves the context and events
unchanged and returns Continue exactly when the frontmatter maps the
exporter's `yaml_inclusion_key` to the YAML boolean `true`, and
StopAndSkipNote in every other case (so it never returns StopHere). -/
theorem yaml_includer_gate (ctx : Context) (events : List Event) (cfg : Exporter) :
    yaml_includer ctx events cfg =
      (ctx, events,
        if fmGet ctx.frontmatter cfg.yaml_inclusion_key = some (Value.bool true)
        then PostprocessorResult.Continue
        else PostprocessorResult.StopAndSkipNote) := by
  unfold yaml_includer
  cases h : fmGet ctx.frontmatter cfg.yaml_inclusion_key with
  | none => simp
  | some v =>
    cases v with
    | bool b => cases b <;> simp
    | null => simp
    | number n => simp
    | str s => simp
    | sequence xs => simp
    | mapping m => simp

/-- Claim C4: once a postprocessor returns StopHere, no later
postprocessor registered in that chain is ever invoked for that note (the
outcome is the same for every tail of the chain), and the note is still
produced using the state as it stood at that point. -/
theorem stophere_halts_chain (p : Postprocessor) (ctx : Context) (events : List Event)
    (cfg : Exporter) (ctx' : Context) (events' : List Event)
    (h : p ctx events cfg = (ctx', events', PostprocessorResult.StopHere)) :
    ∀ rest : List Postprocessor,
      runPostprocessors (p :: rest) ctx events cfg = PipelineOutcome.produced ctx' events' := by
  intro rest
  simp [runPostprocessors, h]

/-- Witness for C4: a postprocessor that returns StopHere halts the chain
before a subsequent skip-everything postprocessor, producing the note in
its current state. -/
theorem stophere_halts_chain_witness :
    ((fun (c : Context) (e : List Event) (_ : Exporter) =>
        (c, e, PostprocessorResult.StopHere)) ctxW [Event.text "hi"] cfgW =
      (ctxW, [Event.text "hi"], PostprocessorResult.StopHere)) ∧
    runPostprocessors
        [(fun (c : Context) (e : List Event) (_ : Exporter) =>
            (c, e, PostprocessorResult.StopHere)), skipAllPP]
        ctxW [Event.text "hi"] cfgW =
      PipelineOutcome.produced ctxW [Event.text "hi"] :=
  ⟨rfl,
    stophere_halts_chain
      (fun (c : Context) (e : List Event) (_ : Exporter) =>
        (c, e, PostprocessorResult.StopHere))
      ctxW [Event.text "hi"] cfgW ctxW [Event.text "hi"] rfl [skipAllPP]⟩

/-- Claim C1: in a vault where note A embeds note B and note B embeds
note A, exporting A fails with the RecursionLimitExceeded condition
carrying the ordered file-tree trace `[A, B, A]` at detection time, and
the export run produces no output file for A. -/
theorem cycle_export_fails (a b : NotePath) (fmA fmB : Frontmatter)
    (preA postA preB postB : List Event) (npps epps : List Postprocessor)
    (cfg : Exporter) (limit : Nat)
    (hab : a ≠ b) (hrec : cfg.process_embeds_recursively = true) (hlim : 2 ≤ limit)
    (hpreA : noEmbeds preA = true) (hpreB : noEmbeds preB = true) :
    exportNote
        [(a, ⟨fmA, preA ++ Event.embed b :: postA⟩), (b, ⟨fmB, preB ++ Event.embed a :: postB⟩)]
        cfg npps epps limit a ⟨fmA, preA ++ Event.embed b :: postA⟩ =
      Except.error (ExportError.recursionLimitExceeded [a, b, a]) ∧
    runVault
        [(a, ⟨fmA, preA ++ Event.embed b :: postA⟩), (b, ⟨fmB, preB ++ Event.embed a :: postB⟩)]
        cfg npps epps limit [a] =
      ([], [(a, ExportError.recursionLimitExceeded [a, b, a])]) := by
  have hba : b ≠ a := Ne.symm hab
  have hinner : ∀ fuel,
      expandEvents
          [(a, ⟨fmA, preA ++ Event.embed b :: postA⟩),
            (b, ⟨fmB, preB ++ Event.embed a :: postB⟩)]
          cfg epps fuel [a, b] (preB ++ Event.embed a :: postB) =
        Except.error (ExportError.recursionLimitExceeded [a, b, a]) := by
    have hgo : ∀ child,
        expandGo
            [(a, ⟨fmA, preA ++ Event.embed b :: postA⟩),
              (b, ⟨fmB, preB ++ Event.embed a :: postB⟩)]
            cfg epps child [a, b] (preB ++ Event.embed a :: postB) =
          Except.error (ExportError.recursionLimitExceeded [a, b, a]) := by
      intro child
      rw [expandGo_append, expandGo_noEmbeds _ _ _ _ _ _ hpreB, expandGo_cons]
      have hhead : expandHead
          [(a, ⟨fmA, preA ++ Event.embed b :: postA⟩),
            (b, ⟨fmB, preB ++ Event.embed a :: postB⟩)]
          cfg epps child [a, b] (Event.embed a) =
          Except.error (ExportError.recursionLimitExceeded [a, b, a]) := by
        simp [expandHead, hrec, vaultLookup]
      rw [hhead]
    intro fuel
    cases fuel with
    | zero => rw [expandEvents_zero]; exact hgo none
    | succ f => rw [expandEvents_succ]; exact hgo _
  have houter : expandEvents
      [(a, ⟨fmA, preA ++ Event.embed b :: postA⟩),
        (b, ⟨fmB, preB ++ Event.embed a :: postB⟩)]
      cfg epps (limit - 1) [a] (preA ++ Event.embed b :: postA) =
      Except.error (ExportError.recursionLimitExceeded [a, b, a]) := by
    obtain ⟨f, hf⟩ : ∃ f, limit - 1 = f + 1 := ⟨limit - 2, by omega⟩
    rw [hf, expandEvents_succ, expandGo_append, expandGo_noEmbeds _ _ _ _ _ _ hpreA,
      expandGo_cons]
    have hhead : expandHead
        [(a, ⟨fmA, preA ++ Event.embed b :: postA⟩),
          (b, ⟨fmB, preB ++ Event.embed a :: postB⟩)]
        cfg epps
        (some (expandEvents
          [(a, ⟨fmA, preA ++ Event.embed b :: postA⟩),
            (b, ⟨fmB, preB ++ Event.embed a :: postB⟩)] cfg epps f))
        [a] (Event.embed b) =
        Except.error (ExportError.recursionLimitExceeded [a, b, a]) := by
      simp [expandHead, hrec, vaultLookup, hab, hba, hinner f]
    rw [hhead]
  have hexp : exportNote
      [(a, ⟨fmA, preA ++ Event.embed b :: postA⟩),
        (b, ⟨fmB, preB ++ Event.embed a :: postB⟩)]
      cfg npps epps limit a ⟨fmA, preA ++ Event.embed b :: postA⟩ =
      Except.error (ExportError.recursionLimitExceeded [a, b, a]) := by
    unfold exportNote
    rw [houter]
  refine ⟨hexp, ?_⟩
  simp [runVault, vaultLookup, hexp]

/-- Witness for C1: a two-note cyclic vault fails with trace
`[A.md, B.md, A.md]` and produces no output. -/
theorem cycle_export_fails_witness :
    ("A.md" : NotePath) ≠ "B.md" ∧
    cfgW.process_embeds_recursively = true ∧
    2 ≤ 5 ∧
    noEmbeds [Event.text "x"] = true ∧
    noEmbeds ([] : List Event) = true ∧
    exportNote
        [("A.md", ⟨[], [Event.text "x"] ++ Event.embed "B.md" :: []⟩),
          ("B.md", ⟨[], [] ++ Event.embed "A.md" :: []⟩)]
        cfgW [] [] 5 "A.md" ⟨[], [Event.text "x"] ++ Event.embed "B.md" :: []⟩ =
      Except.error (ExportError.recursionLimitExceeded ["A.md", "B.md", "A.md"]) ∧
    runVault
        [("A.md", ⟨[], [Event.text "x"] ++ Event.embed "B.md" :: []⟩),
          ("B.md", ⟨[], [] ++ Event.embed "A.md" :: []⟩)]
        cfgW [] [] 5 ["A.md"] =
      ([], [("A.md", ExportError.recursionLimitExceeded ["A.md", "B.md", "A.md"])]) := by
  have h := cycle_export_fails "A.md" "B.md" [] [] [Event.text "x"] [] [] [] [] [] cfgW 5
    (by decide) rfl (by decide) (by decide) (by decide)
  exact ⟨by decide, rfl, by decide, by decide, by decide, h.1, h.2⟩

/-- A concrete note used by witnesses. -/
def noteW : Note := ⟨[], [Event.text "hi"]⟩

/-- Decidable equality on `Except` results (needed to evaluate witness
hypotheses by `decide`). -/
def exceptDecEq {ε α : Type} [DecidableEq ε] [DecidableEq α] : DecidableEq (Except ε α)
  | Except.error x, Except.error y =>
    if h : x = y then Decidable.isTrue (h ▸ rfl)
    else Decidable.isFalse (fun hh => h (Except.error.inj hh))
  | Except.error _, Except.ok _ => Decidable.isFalse (fun hh => Except.noConfusion hh)
  | Except.ok _, Except.error _ => Decidable.isFalse (fun hh => Except.noConfusion hh)
  | Except.ok x, Except.ok y =>
    if h : x = y then Decidable.isTrue (h ▸ rfl)
    else Decidable.isFalse (fun hh => h (Except.ok.inj hh))

instance {ε α : Type} [DecidableEq ε] [DecidableEq α] : DecidableEq (Except ε α) :=
  exceptDecEq

/-- Claim C2: if the note-level postprocessor chain aborts a root note
with StopAndSkipNote, the exporter writes no output file for that note and
the export run still succeeds (no error is reported). -/
theorem stop_and_skip_root (vault : Vault) (cfg : Exporter) (npps epps : List Postprocessor)
    (limit : Nat) (root : NotePath) (note : Note) (events : List Event)
    (hlook : vaultLookup vault root = some note)
    (hexp : expandEvents vault cfg epps (limit - 1) [root] note.body = Except.ok events)
    (hskip : runPostprocessors npps (rootContext cfg root note) events cfg =
      PipelineOutcome.skipped) :
    exportNote vault cfg npps epps limit root note = Except.ok none ∧
    runVault vault cfg npps epps limit [root] = ([], []) := by
  have hx : exportNote vault cfg npps epps limit root note = Except.ok none := by
    unfold exportNote
    rw [hexp]
    simp [hskip]
  exact ⟨hx, by simp [runVault, hlook, hx]⟩

/-- Witness for C2: a one-note vault with an always-skip note-level
postprocessor results in zero files written and zero errors. -/
theorem stop_and_skip_root_witness :
    vaultLookup [("Note.md", noteW)] "Note.md" = some noteW ∧
    expandEvents [("Note.md", noteW)] cfgW [] (5 - 1) ["Note.md"] noteW.body =
      Except.ok [Event.text "hi"] ∧
    runPostprocessors [skipAllPP] (rootContext cfgW "Note.md" noteW) [Event.text "hi"] cfgW =
      PipelineOutcome.skipped ∧
    exportNote [("Note.md", noteW)] cfgW [skipAllPP] [] 5 "Note.md" noteW = Except.ok none ∧
    runVault [("Note.md", noteW)] cfgW [skipAllPP] [] 5 ["Note.md"] = ([], []) := by
  have h := stop_and_skip_root [("Note.md", noteW)] cfgW [skipAllPP] [] 5 "Note.md" noteW
    [Event.text "hi"] (by decide) (by decide) (by decide)
  exact ⟨by decide, by decide, by decide, h.1, h.2⟩

/-- Claim C3: when an embed-level postprocessor chain aborts an embedded
note E with StopAndSkipNote, the embed reference is removed from the root
note R's event stream entirely — no content of E and no literal fallback —
while R's own output file is still written. -/
theorem embed_stop_and_skip (r e : NotePath) (fmR fmE : Frontmatter)
    (pre post bodyE : List Event) (rest : List Postprocessor) (cfg : Exporter) (limit : Nat)
    (hre : r ≠ e) (hrec : cfg.process_embeds_recursively = true) (hlim : 2 ≤ limit)
    (hpre : noEmbeds pre = true) (hpost : noEmbeds post = true)
    (hbody : noEmbeds bodyE = true) :
    exportNote [(r, ⟨fmR, pre ++ Event.embed e :: post⟩), (e, ⟨fmE, bodyE⟩)] cfg []
        (skipAllPP :: rest) limit r ⟨fmR, pre ++ Event.embed e :: post⟩ =
      Except.ok (some ⟨mapPath cfg r, resolve cfg.frontmatter_strategy fmR, pre ++ post⟩) := by
  have her : e ≠ r := Ne.symm hre
  obtain ⟨f, hf⟩ : ∃ f, limit - 1 = f + 1 := ⟨limit - 2, by omega⟩
  have hchild : expandEvents [(r, ⟨fmR, pre ++ Event.embed e :: post⟩), (e, ⟨fmE, bodyE⟩)]
      cfg (skipAllPP :: rest) f [r, e] bodyE = Except.ok bodyE :=
    expandEvents_noEmbeds _ _ _ _ _ _ hbody
  have hhead : expandHead [(r, ⟨fmR, pre ++ Event.embed e :: post⟩), (e, ⟨fmE, bodyE⟩)]
      cfg (skipAllPP :: rest)
      (some (expandEvents [(r, ⟨fmR, pre ++ Event.embed e :: post⟩), (e, ⟨fmE, bodyE⟩)]
        cfg (skipAllPP :: rest) f))
      [r] (Event.embed e) = Except.ok [] := by
    simp [expandHead, hrec, vaultLookup, hre, her, hchild, runPostprocessors, skipAllPP]
  have hexp : expandEvents [(r, ⟨fmR, pre ++ Event.embed e :: post⟩), (e, ⟨fmE, bodyE⟩)]
      cfg (skipAllPP :: rest) (limit - 1) [r] (pre ++ Event.embed e :: post) =
      Except.ok (pre ++ post) := by
    rw [hf, expandEvents_succ, expandGo_append, expandGo_noEmbeds _ _ _ _ _ _ hpre,
      expandGo_cons, hhead, expandGo_noEmbeds _ _ _ _ _ _ hpost]
    simp
  unfold exportNote
  rw [hexp]
  simp [runPostprocessors, rootContext]

/-- Witness for C3: skipping the embedded note leaves exactly the
surrounding root events, and the root is still written. -/
theorem embed_stop_and_skip_witness :
    ("R.md" : NotePath) ≠ "E.md" ∧
    cfgW.process_embeds_recursively = true ∧
    2 ≤ 5 ∧
    noEmbeds [Event.text "r1"] = true ∧
    noEmbeds [Event.text "r2"] = true ∧
    noEmbeds [Event.text "e"] = true ∧
    exportNote
        [("R.md", ⟨[], [Event.text "r1"] ++ Event.embed "E.md" :: [Event.text "r2"]⟩),
          ("E.md", ⟨[], [Event.text "e"]⟩)]
        cfgW [] (skipAllPP :: []) 5 "R.md"
        ⟨[], [Event.text "r1"] ++ Event.embed "E.md" :: [Event.text "r2"]⟩ =
      Except.ok (some ⟨"R.md", none, [Event.text "r1", Event.text "r2"]⟩) := by
  have h := embed_stop_and_skip "R.md" "E.md" [] [] [Event.text "r1"] [Event.text "r2"]
    [Event.text "e"] [] cfgW 5 (by decide) rfl (by decide) (by decide) (by decide) (by decide)
  exact ⟨by decide, rfl, by decide, by decide, by decide, by decide, h⟩

/-- Claim C5: at every postprocessor invocation the context's frontmatter
is exactly that of the note whose body is being transformed: a probing
postprocessor that continues only when it observes a given frontmatter
succeeds on the embed chain exactly with the embedded note's own
frontmatter, and on the note-level chain with the root's, for arbitrary
distinct frontmatters. -/
theorem embed_context_observes_own_frontmatter (r e : NotePath) (fmR fmE : Frontmatter)
    (bodyE : List Event) (cfg : Exporter) (limit : Nat)
    (hre : r ≠ e) (hrec : cfg.process_embeds_recursively = true) (hlim : 2 ≤ limit)
    (hbody : noEmbeds bodyE = true) :
    exportNote [(r, ⟨fmR, [Event.embed e]⟩), (e, ⟨fmE, bodyE⟩)] cfg
        [expectFmPP fmR] [expectFmPP fmE] limit r ⟨fmR, [Event.embed e]⟩ =
      Except.ok (some ⟨mapPath cfg r, resolve cfg.frontmatter_strategy fmR, bodyE⟩) := by
  have her : e ≠ r := Ne.symm hre
  obtain ⟨f, hf⟩ : ∃ f, limit - 1 = f + 1 := ⟨limit - 2, by omega⟩
  have hchild : expandEvents [(r, ⟨fmR, [Event.embed e]⟩), (e, ⟨fmE, bodyE⟩)]
      cfg [expectFmPP fmE] f [r, e] bodyE = Except.ok bodyE :=
    expandEvents_noEmbeds _ _ _ _ _ _ hbody
  have hhead : expandHead [(r, ⟨fmR, [Event.embed e]⟩), (e, ⟨fmE, bodyE⟩)]
      cfg [expectFmPP fmE]
      (some (expandEvents [(r, ⟨fmR, [Event.embed e]⟩), (e, ⟨fmE, bodyE⟩)]
        cfg [expectFmPP fmE] f))
      [r] (Event.embed e) = Except.ok bodyE := by
    simp [expandHead, hrec, vaultLookup, hre, her, hchild, runPostprocessors, expectFmPP,
      embedContext]
  have hexp : expandEvents [(r, ⟨fmR, [Event.embed e]⟩), (e, ⟨fmE, bodyE⟩)]
      cfg [expectFmPP fmE] (limit - 1) [r] [Event.embed e] = Except.ok bodyE := by
    rw [hf, expandEvents_succ, expandGo_cons, hhead]
    simp [expandGo]
  unfold exportNote
  rw [hexp]
  simp [runPostprocessors, expectFmPP, rootContext]

/-- Witness for C5: the embed-level probe sees `is_root_note: false` (the
embedded note's own frontmatter) while the note-level probe sees
`is_root_note: true` (the root's), and the export succeeds. -/
theorem embed_context_observes_own_frontmatter_witness :
    ("R.md" : NotePath) ≠ "E.md" ∧
    cfgW.process_embeds_recursively = true ∧
    2 ≤ 5 ∧
    noEmbeds [Event.text "e"] = true ∧
    exportNote
        [("R.md", ⟨[(Value.str "is_root_note", Value.bool true)], [Event.embed "E.md"]⟩),
          ("E.md", ⟨[(Value.str "is_root_note", Value.bool false)], [Event.text "e"]⟩)]
        cfgW
        [expectFmPP [(Value.str "is_root_note", Value.bool true)]]
        [expectFmPP [(Value.str "is_root_note", Value.bool false)]]
        5 "R.md" ⟨[(Value.str "is_root_note", Value.bool true)], [Event.embed "E.md"]⟩ =
      Except.ok (some ⟨"R.md", some [(Value.str "is_root_note", Value.bool true)],
        [Event.text "e"]⟩) := by
  have h := embed_context_observes_own_frontmatter "R.md" "E.md"
    [(Value.str "is_root_note", Value.bool true)]
    [(Value.str "is_root_note", Value.bool false)]
    [Event.text "e"] cfgW 5 (by decide) rfl (by decide) (by decide)
  exact ⟨by decide, rfl, by decide, by decide, h⟩

/-- Claim C7: frontmatter resolution returns, under Always, the mapping
even when empty; under Never, nothing; under Auto, the mapping iff it is
non-empty — and it is evaluated after the note's postprocessors have run,
so an entry added by a postprocessor to an initially empty frontmatter
makes the Auto decision emit a block in the written output. -/
theorem frontmatter_resolution :
    (∀ fm : Frontmatter, resolve FrontmatterStrategy.Always fm = some fm) ∧
    (∀ fm : Frontmatter, resolve FrontmatterStrategy.Never fm = none) ∧
    (∀ fm : Frontmatter, resolve FrontmatterStrategy.Auto fm =
      if fm.isEmpty then none else some fm) ∧
    (∀ (r : NotePath) (body : List Event) (k v : Value) (rec flat : Bool) (key : Value)
        (epps : List Postprocessor) (limit : Nat),
      noEmbeds body = true →
      exportNote [(r, ⟨[], body⟩)] ⟨FrontmatterStrategy.Auto, rec, flat, key⟩
          [appendFmPP k v] epps limit r ⟨[], body⟩ =
        Except.ok (some ⟨mapPath ⟨FrontmatterStrategy.Auto, rec, flat, key⟩ r,
          some [(k, v)], body⟩)) := by
  refine ⟨fun fm => rfl, fun fm => rfl, fun fm => rfl, ?_⟩
  intro r body k v rec flat key epps limit h
  unfold exportNote
  rw [expandEvents_noEmbeds _ _ _ _ _ _ h]
  simp [runPostprocessors, appendFmPP, rootContext, fmInsert, resolve]

/-- Witness for C7: with strategy Auto, an empty source frontmatter and a
postprocessor that appends `bar: baz`, the written output carries the
frontmatter block `bar: baz`. -/
theorem frontmatter_resolution_witness :
    noEmbeds [Event.text "x"] = true ∧
    exportNote [("Note.md", ⟨[], [Event.text "x"]⟩)]
        ⟨FrontmatterStrategy.Auto, true, false, Value.str "export"⟩
        [appendFmPP (Value.str "bar") (Value.str "baz")] [] 5 "Note.md"
        ⟨[], [Event.text "x"]⟩ =
      Except.ok (some ⟨"Note.md", some [(Value.str "bar", Value.str "baz")],
        [Event.text "x"]⟩) :=
  ⟨by decide,
    frontmatter_resolution.2.2.2 "Note.md" [Event.text "x"] (Value.str "bar")
      (Value.str "baz") true false (Value.str "export") [] 5 (by decide)⟩

/-- Claim C8: a note-level postprocessor that redirects the context's
destination makes the root note's output go to the redirected path rather
than the mapped one; for embedded notes the destination field is never
consulted, so an embed-level redirect has no effect on the written file
(the result does not depend on the redirected value at all). -/
theorem destination_redirect_behavior :
    (∀ (r : NotePath) (note : Note) (d : NotePath) (cfg : Exporter)
        (epps : List Postprocessor) (limit : Nat),
      noEmbeds note.body = true →
      exportNote [(r, note)] cfg [redirectPP d] epps limit r note =
        Except.ok (some ⟨d, resolve cfg.frontmatter_strategy note.frontmatter, note.body⟩)) ∧
    (∀ (r e : NotePath) (fmR fmE : Frontmatter) (bodyE : List Event) (d : NotePath)
        (cfg : Exporter) (limit : Nat),
      r ≠ e → cfg.process_embeds_recursively = true → 2 ≤ limit → noEmbeds bodyE = true →
      exportNote [(r, ⟨fmR, [Event.embed e]⟩), (e, ⟨fmE, bodyE⟩)] cfg
          [] [redirectPP d] limit r ⟨fmR, [Event.embed e]⟩ =
        Except.ok (some ⟨mapPath cfg r, resolve cfg.frontmatter_strategy fmR, bodyE⟩)) := by
  constructor
  · intro r note d cfg epps limit h
    unfold exportNote
    rw [expandEvents_noEmbeds _ _ _ _ _ _ h]
    simp [runPostprocessors, redirectPP, rootContext]
  · intro r e fmR fmE bodyE d cfg limit hre hrec hlim hbody
    have her : e ≠ r := Ne.symm hre
    obtain ⟨f, hf⟩ : ∃ f, limit - 1 = f + 1 := ⟨limit - 2, by omega⟩
    have hchild : expandEvents [(r, ⟨fmR, [Event.embed e]⟩), (e, ⟨fmE, bodyE⟩)]
        cfg [redirectPP d] f [r, e] bodyE = Except.ok bodyE :=
      expandEvents_noEmbeds _ _ _ _ _ _ hbody
    have hhead : expandHead [(r, ⟨fmR, [Event.embed e]⟩), (e, ⟨fmE, bodyE⟩)]
        cfg [redirectPP d]
        (some (expandEvents [(r, ⟨fmR, [Event.embed e]⟩), (e, ⟨fmE, bodyE⟩)]
          cfg [redirectPP d] f))
        [r] (Event.embed e) = Except.ok bodyE := by
      simp [expandHead, hrec, vaultLookup, hre, her, hchild, runPostprocessors, redirectPP,
        embedContext]
    have hexp : expandEvents [(r, ⟨fmR, [Event.embed e]⟩), (e, ⟨fmE, bodyE⟩)]
        cfg [redirectPP d] (limit - 1) [r] [Event.embed e] = Except.ok bodyE := by
      rw [hf, expandEvents_succ, expandGo_cons, hhead]
      simp [expandGo]
    unfold exportNote
    rw [hexp]
    simp [runPostprocessors, rootContext]

/-- Witness for C8: the root redirect lands the output at the redirected
path; an embed-level redirect leaves the written file unchanged. -/
theorem destination_redirect_behavior_witness :
    noEmbeds noteW.body = true ∧
    exportNote [("Note.md", noteW)] cfgW [redirectPP "Moved.md"] [] 5 "Note.md" noteW =
      Except.ok (some ⟨"Moved.md", none, [Event.text "hi"]⟩) ∧
    ("R.md" : NotePath) ≠ "E.md" ∧
    cfgW.process_embeds_recursively = true ∧
    2 ≤ 5 ∧
    noEmbeds [Event.text "e"] = true ∧
    exportNote [("R.md", ⟨[], [Event.embed "E.md"]⟩), ("E.md", ⟨[], [Event.text "e"]⟩)]
        cfgW [] [redirectPP "Else.md"] 5 "R.md" ⟨[], [Event.embed "E.md"]⟩ =
      Except.ok (some ⟨"R.md", none, [Event.text "e"]⟩) := by
  have h := destination_redirect_behavior
  exact ⟨by decide,
    h.1 "Note.md" noteW "Moved.md" cfgW [] 5 (by decide),
    by decide, rfl, by decide, by decide,
    h.2 "R.md" "E.md" [] [] [Event.text "e"] "Else.md" cfgW 5 (by decide) rfl (by decide)
      (by decide)⟩
